import Mathlib

/-!
Verification of the tktransl parallel translation pipeline.

Strings are modelled as `List Char`.  Each definition in the `TkTransl`
namespace is a shallow embedding of the corresponding Python construct in
the repository (`tktransl.py`, `sakurallm.py`, `utils.py`,
`utils/translators/sakurallm.py`, `utils/load.py`).  Recursions that are
not structural are written with an explicit fuel argument equal to a
length bound, so that every definition evaluates in the kernel.
-/

namespace TkTransl

/-- Convert a string literal to the `List Char` representation used
throughout this development. -/
def lc (s : String) : List Char := s.toList

/-- Python `old in s` substring test (for `old ≠ ""`; Python's `"" in s`
is `True`, which the empty case also returns). -/
def containsSub (pat : List Char) : List Char → Bool
  | [] => pat.isEmpty
  | s@(_ :: rest) => pat.isPrefixOf s || containsSub pat rest

/-- Fuel-driven core of Python `s.replace(old, new)` for `old ≠ []`:
scan left to right, replacing non-overlapping occurrences. -/
def pyReplaceAux (old new : List Char) : Nat → List Char → List Char
  | 0, s => s
  | _ + 1, [] => []
  | fuel + 1, s@(x :: xs) =>
    if old.isPrefixOf s then new ++ pyReplaceAux old new fuel (s.drop old.length)
    else x :: pyReplaceAux old new fuel xs

/-- Python `s.replace(old, new)`.  For `old = ""` Python interleaves
`new` around every character. -/
def pyReplace (s old new : List Char) : List Char :=
  if old.isEmpty then new ++ s.flatMap (fun c => c :: new)
  else pyReplaceAux old new s.length s

/-- Characters treated as line boundaries by Python `str.splitlines`. -/
def isLineBreak (c : Char) : Bool :=
  c = '\n' || c = '\r' || c = '\x0b' || c = '\x0c' ||
  c = '\x1c' || c = '\x1d' || c = '\x1e' || c = '\x85' ||
  c.toNat = 0x2028 || c.toNat = 0x2029

/-- Python `str.splitlines`: accumulates the current line (reversed);
`\r\n` counts as a single boundary; a trailing boundary does not
produce an extra empty line. -/
def splitlinesAux : List Char → List Char → List (List Char)
  | [], cur => if cur.isEmpty then [] else [cur.reverse]
  | '\r' :: '\n' :: rest, cur => cur.reverse :: splitlinesAux rest []
  | c :: rest, cur =>
    if isLineBreak c then cur.reverse :: splitlinesAux rest []
    else splitlinesAux rest (c :: cur)

/-- Python `s.splitlines()`. -/
def pySplitlines (s : List Char) : List (List Char) := splitlinesAux s []

/-- Python `s.split(c, 1)` on a one-character separator known to occur:
returns the parts before and after the first occurrence of `c`. -/
def splitFirstChar (c : Char) : List Char → List Char × List Char
  | [] => ([], [])
  | x :: xs =>
    if x = c then ([], xs)
    else
      let p := splitFirstChar c xs
      (x :: p.1, p.2)

/-- Python `s[:s.rfind(c)]`: everything strictly before the last
occurrence of `c` (callers guard on `c ∈ s`). -/
def takeBeforeLastChar (c : Char) : List Char → List Char
  | [] => []
  | x :: xs =>
    if xs.contains c then x :: takeBeforeLastChar c xs
    else if x = c then [] else []

/-- Decimal digits of `n`, fuel-driven (`fuel = n + 1` always suffices);
embeds Python `str(n)` for a nonnegative integer. -/
def natDecAux : Nat → Nat → List Char
  | 0, _ => []
  | fuel + 1, n =>
    if n < 10 then [Nat.digitChar n]
    else natDecAux fuel (n / 10) ++ [Nat.digitChar (n % 10)]

/-- Python `str(n)` for a natural number. -/
def natDec (n : Nat) : List Char := natDecAux (n + 1) n

/-- Decode a decimal digit string back to a number (proof tool, used to
invert `natDec`). -/
def decodeDec (s : List Char) : Nat :=
  s.foldl (fun a c => 10 * a + (c.toNat - 48)) 0

/-- Apply a translation dictionary in listed order: the loop
`for entry in dict: s = s.replace(entry["source"], entry["target"])`
of `tktransl.py`. -/
def applyDicts (d : List (List Char × List Char)) (s : List Char) : List Char :=
  d.foldl (fun acc e => pyReplace acc e.1 e.2) s

/-! ### Data model

One script entry (`sakurallm.py` docstring; work-file objects of
`utils.py::read_texts_to_translate`).  `speaker`, `target` and
`target_speaker` are `Option` because the corresponding Python dict keys
may be absent; `extra` holds passthrough keys.  -/

structure Entry where
  index : Nat
  source : List Char
  speaker : Option (List Char)
  target : Option (List Char)
  target_speaker : Option (List Char)
  extra : List (List Char × List Char)
  deriving DecidableEq, Repr

/-! ### Placeholder minter (`utils.py::generate_placeholder_token`) -/

/-- The token `f"<{base_name}-{random_number}>"`. -/
def mkToken (base : List Char) (r : Nat) : List Char :=
  '<' :: base ++ '-' :: natDec r ++ ['>']

/-- Attempt loop of `generate_placeholder_token`: `draws i` models the
value of the `i`-th call to `random.randint(0, 2**16)` (which is
inclusive on both ends, so `draws i ≤ 2 ^ 16`).  `none` models the
raised `RuntimeError` after all attempts collide. -/
def genTokenGo (base text : List Char) (draws : Nat → Nat) :
    Nat → Nat → Option (List Char)
  | 0, _ => none
  | fuel + 1, i =>
    let t := mkToken base (draws i)
    if containsSub t text then genTokenGo base text draws fuel (i + 1) else some t

/-- `utils.py::generate_placeholder_token` (the local
`max_attempts = 10` overrides the parameter). -/
def generatePlaceholderToken (base text : List Char) (draws : Nat → Nat) :
    Option (List Char) :=
  genTokenGo base text draws 10 0

/-! ### Prompt assembly preprocessing (`sakurallm.py::batch_translate`,
lines 189-198 and 211-220) -/

/-- The shared text normalisation
`s.replace("\r\n", "\n").replace("\n", newline_token)`. -/
def normalizeBody (nl s : List Char) : List Char :=
  pyReplace (pyReplace s (lc "\r\n") (lc "\n")) (lc "\n") nl

/-- Transformation of one batch entry into its prompt line
(`processed_sources` loop): normalise, then for speaker entries replace
the quotes by the placeholder tokens and wrap as `speaker「body」`. -/
def processSource (nl qs qe : List Char) (e : Entry) : List Char :=
  let t := normalizeBody nl e.source
  match e.speaker with
  | some sp => sp ++ '「' :: (pyReplace (pyReplace t (lc "「") qs) (lc "」") qe) ++ ['」']
  | none => t

/-- Transformation of one history entry (`processed_history` loop): same
as `processSource` but on `target`, with the speaker display preferring
`target_speaker` (`history_entry.get("target_speaker", history_entry["speaker"])`).
A history entry always carries a target; a missing one is modelled as the
empty string (`Option.getD`). -/
def processHistory (nl qs qe : List Char) (e : Entry) : List Char :=
  let t := normalizeBody nl (e.target.getD [])
  match e.speaker with
  | some sp =>
    let disp := e.target_speaker.getD sp
    disp ++ '「' :: (pyReplace (pyReplace t (lc "「") qs) (lc "」") qe) ++ ['」']
  | none => t

/-! ### Response validator / splitter (`sakurallm.py::batch_translate`,
lines 241-277) -/

/-- Translation errors (`TranslateError` hierarchy): `count` is
`TranslationCountError(sources_count, targets_count)`; `otherTranslate`
stands for any other `TranslateError`. -/
inductive TransErr where
  | count (sourcesCount targetsCount : Nat)
  | otherTranslate
  deriving DecidableEq, Repr

/-- Reconstruction of one entry from one reply line (the
`for source_entry, translated_text in zip(...)` body): restore newlines,
then for speaker entries containing `「` split at the first `「`,
truncate at the last `」` if present, and restore the quote tokens. -/
def restoreEntry (nl qs qe : List Char) (e : Entry) (line : List Char) : Entry :=
  let restored := pyReplace line nl (lc "\n")
  let base := { e with target := some restored }
  match e.speaker with
  | some _ =>
    if restored.contains '「' then
      let p := splitFirstChar '「' restored
      let body :=
        if p.2.contains '」' then takeBeforeLastChar '」' p.2 else p.2
      let body2 := pyReplace (pyReplace body qs (lc "「")) qe (lc "」")
      { base with target := some body2, target_speaker := some p.1 }
    else base
  | none => base

/-- Post-processing phase of `batch_translate` as a function of the
accumulated reply: the line-count validation (with the single-entry
recovery `api_response.replace("\n", "")`) followed by per-entry
reconstruction. -/
def batchTranslatePost (nl qs qe : List Char) (sources : List Entry)
    (resp : List Char) : Except TransErr (List Entry) :=
  let responseLines := pySplitlines resp
  if sources.length ≠ responseLines.length then
    if sources.length = 1 then
      let collapsed := pyReplace resp (lc "\n") []
      .ok (List.zipWith (restoreEntry nl qs qe) sources [collapsed])
    else .error (.count sources.length responseLines.length)
  else .ok (List.zipWith (restoreEntry nl qs qe) sources responseLines)

/-! ### Dispatcher (`tktransl.py::main`, lines 114-195)

The per-file loop keeps `untranslated_texts` (queue), `translated_results`
(done, sorted by index) and `dynamic_batch_size`.  A worker's resolution
is one pass of the `for endpoint, lock, result_container, processing_texts`
body once `result_container` is non-empty. -/

structure DispState where
  queue : List Entry
  done : List Entry
  batchSize : Nat
  deriving DecidableEq, Repr

/-- Resolved content of a worker's `result_container[0]`: either the
`batch_translate` result list or a `TranslateError`. -/
inductive Outcome where
  | ok (results : List Entry)
  | err (k : TransErr)
  deriving DecidableEq, Repr

/-- Stable insertion by `index` (Python `list.sort(key=lambda x: x["index"])`
is a stable sort; only the resulting order matters here). -/
def insertByIndex (e : Entry) : List Entry → List Entry
  | [] => [e]
  | x :: xs => if e.index ≤ x.index then e :: x :: xs else x :: insertByIndex e xs

/-- Stable sort by `index`. -/
def sortByIndex : List Entry → List Entry
  | [] => []
  | x :: xs => insertByIndex x (sortByIndex xs)

/-- Post-translation dictionary application to one result
(`target["target"] = target["target"].replace(...)` loop). -/
def applyPostDict (pd : List (List Char × List Char)) (e : Entry) : Entry :=
  { e with target := e.target.map (applyDicts pd) }

/-- Tail of the worker block: clear the slot, then if the queue is
non-empty take the first `batch_size` entries as the new in-flight batch
(`untranslated_texts[:dynamic_batch_size]` /
`untranslated_texts[dynamic_batch_size:]`). -/
def dispatchNext (st : DispState) : DispState × List Entry :=
  if st.queue.isEmpty then (st, [])
  else ({ st with queue := st.queue.drop st.batchSize }, st.queue.take st.batchSize)

/-- One worker-resolution step of the dispatcher loop.  `initBatch` is
`args.batch_size`, `proc` the worker's `processing_texts`, and the
returned pair is the new dispatcher state and the worker's new
`processing_texts`.  On success the results get the post-dictionary
applied, join `translated_results` and the batch size resets; on error
the batch returns to the queue and only a `TranslationCountError`
halves the batch size (`dynamic_batch_size //= 2`, no lower bound). -/
def stepWorker (initBatch : Nat) (postDict : List (List Char × List Char))
    (s : DispState) (proc : List Entry) (outcome : Outcome) :
    DispState × List Entry :=
  match outcome with
  | .ok results =>
    let results2 := results.map (applyPostDict postDict)
    dispatchNext
      { queue := s.queue, done := sortByIndex (s.done ++ results2),
        batchSize := initBatch }
  | .err k =>
    let bs2 :=
      match k with
      | .count _ _ => s.batchSize / 2
      | _ => s.batchSize
    dispatchNext
      { queue := sortByIndex (s.queue ++ proc), done := s.done, batchSize := bs2 }

/-! ### Degeneration detector
(`utils/translators/sakurallm.py::check_degen`, lines 77-98, and its call
site at lines 196-198) -/

/-- Python `resp[-l:]` for `l ≥ 1`. -/
def takeLast (l : Nat) (s : List Char) : List Char := s.drop (s.length - l)

/-- Inner `while start < len(resp)` scan of `check_degen`: count
consecutive non-overlapping occurrences of `txt`, resetting on mismatch;
report once the count reaches `T`.  `fuel = len(resp) + 1` suffices since
`start` strictly increases. -/
def scanRepGo (T : Nat) (txt : List Char) : Nat → List Char → Nat → Bool
  | 0, _, _ => false
  | fuel + 1, s, cnt =>
    if s.isEmpty then false
    else if txt.isPrefixOf s then
      if cnt + 1 ≥ T then true else scanRepGo T txt fuel (s.drop txt.length) (cnt + 1)
    else
      if 0 ≥ T then true else scanRepGo T txt fuel (s.drop 1) 0

/-- `check_degen(resp, max_repetition_cnt)`: try every suffix length in
`range(1, len(resp) // max_repetition_cnt)`. -/
def checkDegen (resp : List Char) (T : Nat) : Bool :=
  (List.range' 1 (resp.length / T - 1)).any fun l =>
    scanRepGo T (takeLast l resp) (resp.length + 1) resp 0

/-- The full mid-stream degeneration test at the call site:
`check_degen(resp, max(len(sources), 30)) or (len(resp) / len(sources) > 1.5)`.
The float comparison `len(resp)/len(sources) > 1.5` is modelled exactly as
`2 * len(resp) > 3 * len(sources)` (exact for all realistic sizes); it is
only meaningful for `sources ≠ ""` (Python would raise `ZeroDivisionError`
otherwise). -/
def degenDetector (resp sources : List Char) : Bool :=
  checkDegen resp (max sources.length 30) ||
    decide (2 * resp.length > 3 * sources.length)

/-- `t ^ n` : `n` copies of `t` concatenated. -/
def repeatList (t : List Char) : Nat → List Char
  | 0 => []
  | n + 1 => t ++ repeatList t n

/-- Modelled from the spec's words (for comparison with the code, claim
C7): "there exists any suffix substring `t` of `R` with `|t| ≥ 1` and
`|t| < |R|/T` such that `R` ends in `T` consecutive non-overlapping
occurrences of `t`, or `|R| > 1.5 · |sources|`", with
`T = max(len(sources), 30)`. -/
def specDegen (resp sources : List Char) : Prop :=
  (∃ l < resp.length, 1 ≤ l ∧ l * max sources.length 30 < resp.length ∧
      takeLast (max sources.length 30 * l) resp =
        repeatList (takeLast l resp) (max sources.length 30) ∧
      max sources.length 30 * l ≤ resp.length) ∨
    2 * resp.length > 3 * sources.length

instance (resp sources : List Char) : Decidable (specDegen resp sources) := by
  unfold specDegen; infer_instance

/-! ### Glossary loaders (`utils.py::read_gpt_dict` and
`utils/load.py::load_dicts`) -/

/-- Python whitespace stripped by `str.strip()` (ASCII part; the corpus
only contains these). -/
def isPySpace (c : Char) : Bool :=
  c = ' ' || c = '\t' || c = '\n' || c = '\r' || c = '\x0b' || c = '\x0c'

/-- Python `s.strip()`. -/
def pyStrip (s : List Char) : List Char :=
  ((s.dropWhile isPySpace).reverse.dropWhile isPySpace).reverse

/-- Python `s.split(sep, 1)` for a non-empty separator substring:
`some (before, after)` at the first occurrence, `none` if absent. -/
def splitOnceSub (sep : List Char) : List Char → Option (List Char × List Char)
  | [] => if sep.isEmpty then some ([], []) else none
  | s@(x :: xs) =>
    if sep.isPrefixOf s then some ([], s.drop sep.length)
    else (splitOnceSub sep xs).map fun p => (x :: p.1, p.2)

/-- One model-facing dictionary term `{source, target, description?}`. -/
structure GptTerm where
  src : List Char
  tgt : List Char
  info : Option (List Char)
  deriving DecidableEq, Repr

/-- Per-line parse of `utils.py::read_gpt_dict` (lines 86-109): strip,
skip comments/blank/`->`-less lines, split at the first `->`, strip both
parts, then split the target at `" #"` into target and description. -/
def readGptDictLine (rawLine : List Char) : Option GptTerm :=
  let line := pyStrip rawLine
  if line.isEmpty then none
  else if (lc "//").isPrefixOf line then none
  else if !containsSub (lc "->") line then none
  else
    match splitOnceSub (lc "->") line with
    | none => none
    | some p =>
      let source := pyStrip p.1
      let target := pyStrip p.2
      if containsSub (lc " #") target then
        match splitOnceSub (lc " #") target with
        | none => none
        | some q => some ⟨source, pyStrip q.1, some (pyStrip q.2)⟩
      else some ⟨source, target, none⟩

/-- Per-line parse of `utils/load.py::load_dicts` for the GPT dictionary
(`index == 2`): cut at `//`, strip, split at the first `->`, apply
`src.replace("\\->", "->")`, split the rest at `" #"`. -/
def loadDictsGptLine (rawLine : List Char) : Option GptTerm :=
  let entryStr :=
    pyStrip (match splitOnceSub (lc "//") rawLine with
      | some p => p.1
      | none => rawLine)
  if entryStr.isEmpty then none
  else if !containsSub (lc "->") entryStr then none
  else
    match splitOnceSub (lc "->") entryStr with
    | none => none
    | some p =>
      let src := pyReplace p.1 (lc "\\->") (lc "->")
      match splitOnceSub (lc " #") p.2 with
      | none => some ⟨src, p.2, none⟩
      | some q => some ⟨src, q.1, some q.2⟩

/-! ### File driver write-back (`tktransl.py::main`, lines 109-112 and
205-209) -/

/-- One raw object of the work-file JSON array. -/
structure Row where
  source : Option (List Char)
  speaker : Option (List Char)
  target : Option (List Char)
  target_speaker : Option (List Char)
  extra : List (List Char × List Char)
  deriving DecidableEq, Repr

/-- Set one key of an association list (overwrite the first binding or
append). -/
def setAssoc (m : List (List Char × List Char)) (kv : List Char × List Char) :
    List (List Char × List Char) :=
  match m with
  | [] => [kv]
  | x :: xs => if x.1 = kv.1 then kv :: xs else x :: setAssoc xs kv

/-- Python `dict.update`: every key of `upd` overwrites or extends `old`. -/
def updateAssoc (old upd : List (List Char × List Char)) :
    List (List Char × List Char) :=
  upd.foldl setAssoc old

/-- `data[entry["index"]].update({k: v for k, v in entry.items() if k != "index"})`:
every key of the result entry except `index` overwrites the original
object. -/
def mergeRow (row : Row) (e : Entry) : Row :=
  { source := some e.source
    speaker := match e.speaker with | some s => some s | none => row.speaker
    target := match e.target with | some t => some t | none => row.target
    target_speaker :=
      match e.target_speaker with | some t => some t | none => row.target_speaker
    extra := updateAssoc row.extra e.extra }

/-- Pending-entry extraction of `utils.py::read_texts_to_translate`
(`{"index": idx, **entry}`) for a row whose `source` strips non-empty and
whose `target` is absent or falsy. -/
def toEntry (i : Nat) (row : Row) : Entry :=
  ⟨i, row.source.getD [], row.speaker, row.target, row.target_speaker, row.extra⟩

/-- Pre-translation dictionary substitution applied in place to a pending
entry's `source` (`tktransl.py` lines 110-112). -/
def applyPreDict (pd : List (List Char × List Char)) (e : Entry) : Entry :=
  { e with source := applyDicts pd e.source }

/-! ### Streaming client (`sakurallm.py::ask_stream`, lines 44-121)

`orjson.loads` is modelled by a recursive-descent JSON parser; the only
properties used are that well-formed frames parse to the expected value
and that malformed payloads (such as `[DONE]`) fail. -/

inductive Json where
  | null
  | bool (b : Bool)
  | num (raw : List Char)
  | str (s : List Char)
  | arr (elems : List Json)
  | obj (fields : List (List Char × Json))

/-- JSON whitespace. -/
def skipWs (s : List Char) : List Char :=
  s.dropWhile fun c => c = ' ' || c = '\t' || c = '\n' || c = '\r'

/-- Hexadecimal digit value. -/
def hexVal (c : Char) : Option Nat :=
  if '0' ≤ c ∧ c ≤ '9' then some (c.toNat - 48)
  else if 'a' ≤ c ∧ c ≤ 'f' then some (c.toNat - 87)
  else if 'A' ≤ c ∧ c ≤ 'F' then some (c.toNat - 55)
  else none

/-- JSON string literal body (after the opening quote), with the usual
escapes (`\uXXXX` without surrogate pairing, which never occurs here). -/
def parseStrLit : List Char → List Char → Option (List Char × List Char)
  | [], _ => none
  | '"' :: rest, acc => some (acc.reverse, rest)
  | '\\' :: rest, acc =>
    match rest with
    | 'n' :: r => parseStrLit r ('\n' :: acc)
    | 't' :: r => parseStrLit r ('\t' :: acc)
    | 'r' :: r => parseStrLit r ('\r' :: acc)
    | 'b' :: r => parseStrLit r ('\x08' :: acc)
    | 'f' :: r => parseStrLit r ('\x0c' :: acc)
    | '/' :: r => parseStrLit r ('/' :: acc)
    | '\\' :: r => parseStrLit r ('\\' :: acc)
    | '"' :: r => parseStrLit r ('"' :: acc)
    | 'u' :: h1 :: h2 :: h3 :: h4 :: r =>
      match hexVal h1, hexVal h2, hexVal h3, hexVal h4 with
      | some a, some b, some c, some d =>
        parseStrLit r (Char.ofNat (((a * 16 + b) * 16 + c) * 16 + d) :: acc)
      | _, _, _, _ => none
    | _ => none
  | c :: rest, acc => parseStrLit rest (c :: acc)

/-- JSON number token: raw characters, value never inspected by the
stream handler. -/
def parseNum (s : List Char) : Option (List Char × List Char) :=
  let sign := if s.headD ' ' = '-' then ['-'] else []
  let s1 := s.drop sign.length
  let digits := s1.takeWhile fun c =>
    c.isDigit || c = '.' || c = 'e' || c = 'E' || c = '+' || c = '-'
  if (digits.headD ' ').isDigit then
    some (sign ++ digits, s1.drop digits.length)
  else none

mutual

/-- JSON value parser; fuel `2 * |input| + 2` always suffices. -/
def parseVal : Nat → List Char → Option (Json × List Char)
  | 0, _ => none
  | fuel + 1, s =>
    match skipWs s with
    | 'n' :: 'u' :: 'l' :: 'l' :: rest => some (.null, rest)
    | 't' :: 'r' :: 'u' :: 'e' :: rest => some (.bool true, rest)
    | 'f' :: 'a' :: 'l' :: 's' :: 'e' :: rest => some (.bool false, rest)
    | '"' :: rest => (parseStrLit rest []).map fun p => (.str p.1, p.2)
    | '[' :: rest =>
      match skipWs rest with
      | ']' :: r2 => some (.arr [], r2)
      | r1 => parseArrItems fuel r1 []
    | '\x7b' :: rest =>
      match skipWs rest with
      | '\x7d' :: r2 => some (.obj [], r2)
      | r1 => parseObjItems fuel r1 []
    | s2 => (parseNum s2).map fun p => (.num p.1, p.2)

/-- Comma-separated array items up to `]`. -/
def parseArrItems : Nat → List Char → List Json → Option (Json × List Char)
  | 0, _, _ => none
  | fuel + 1, s, acc =>
    match parseVal fuel s with
    | none => none
    | some (v, rest) =>
      match skipWs rest with
      | ',' :: r2 => parseArrItems fuel r2 (v :: acc)
      | ']' :: r2 => some (.arr (v :: acc).reverse, r2)
      | _ => none

/-- Comma-separated `"key": value` pairs up to the closing brace. -/
def parseObjItems : Nat → List Char → List (List Char × Json) →
    Option (Json × List Char)
  | 0, _, _ => none
  | fuel + 1, s, acc =>
    match skipWs s with
    | '"' :: rest =>
      match parseStrLit rest [] with
      | none => none
      | some (k, r1) =>
        match skipWs r1 with
        | ':' :: r2 =>
          match parseVal fuel r2 with
          | none => none
          | some (v, r3) =>
            match skipWs r3 with
            | ',' :: r4 => parseObjItems fuel r4 ((k, v) :: acc)
            | '\x7d' :: r4 => some (.obj ((k, v) :: acc).reverse, r4)
            | _ => none
        | _ => none
    | _ => none

end

/-- `orjson.loads`: parse one value and require only whitespace after it;
`none` models the raised `JSONDecodeError`. -/
def jsonLoads (s : List Char) : Option Json :=
  match parseVal (2 * s.length + 2) s with
  | some (v, rest) => if (skipWs rest).isEmpty then some v else none
  | none => none

/-- Python dict key access on a parsed object (last duplicate key wins,
as in `orjson`); `none` for a missing key or a non-object value (where
Python raises `KeyError` / `TypeError` / `AttributeError`). -/
def objGet (j : Json) (k : List Char) : Option Json :=
  match j with
  | .obj fields => (fields.reverse.find? fun kv => kv.1 = k).map Prod.snd
  | _ => none

/-- Python truthiness of a JSON number token: zero iff every digit of the
mantissa is `0`. -/
def numTruthy (raw : List Char) : Bool :=
  ((raw.takeWhile fun c => c ≠ 'e' ∧ c ≠ 'E').filter Char.isDigit).any
    fun c => c ≠ '0'

/-- Python truthiness of a parsed JSON value. -/
def jsonTruthy : Json → Bool
  | .null => false
  | .bool b => b
  | .str s => !s.isEmpty
  | .arr xs => !xs.isEmpty
  | .obj fs => !fs.isEmpty
  | .num raw => numTruthy raw

/-- Outcome of the `for line in response.iter_lines()` body for one line. -/
inductive LineOut where
  | skip
  | frag (content : Option Json)
  | finish
  | fail

/-- Processing of one stream line (`ask_stream` lines 102-121): skip empty
lines, drop the first six characters (`line = line[6:]`, unconditional),
JSON-parse, require `choices[0]`, break on a truthy `finish_reason`,
otherwise yield a truthy `delta.content`.  `fail` models any uncaught
exception (`JSONDecodeError`, `KeyError`, `IndexError`, attribute errors). -/
def lineKind (line : List Char) : LineOut :=
  if line.isEmpty then .skip
  else
    match jsonLoads (line.drop 6) with
    | none => .fail
    | some data =>
      match objGet data (lc "choices") with
      | none => .fail
      | some choices =>
        match choices with
        | .arr (choice :: _) =>
          match choice with
          | .obj _ =>
            if ((objGet choice (lc "finish_reason")).map jsonTruthy).getD false
            then .finish
            else
              match objGet choice (lc "delta") with
              | none => .fail
              | some delta =>
                match delta with
                | .obj _ =>
                  match objGet delta (lc "content") with
                  | some v => if jsonTruthy v then .frag (some v) else .frag none
                  | none => .frag none
                | _ => .fail
          | _ => .fail
        | _ => .fail

/-- Result of draining the `ask_stream` generator: the yielded fragments
on normal termination, or the kind of raised exception. -/
inductive AskResult where
  | ok (frags : List Json)
  | errStatus
  | errFrame

/-- Fold of `lineKind` over the response lines. -/
def askStreamGo : List (List Char) → List Json → AskResult
  | [], acc => .ok acc.reverse
  | l :: ls, acc =>
    match lineKind l with
    | .skip => askStreamGo ls acc
    | .frag none => askStreamGo ls acc
    | .frag (some v) => askStreamGo ls (v :: acc)
    | .finish => .ok acc.reverse
    | .fail => .errFrame

/-- `ask_stream` drained eagerly, as a function of the response status and
its body lines: non-200 raises (`errStatus`); a truthy `finish_reason` or
the end of the body terminates the fragment stream normally. -/
def askStream (status : Nat) (bodyLines : List (List Char)) : AskResult :=
  if status ≠ 200 then .errStatus else askStreamGo bodyLines []

/-! ### Definitions taken from the specification's words (for comparison
with the code) -/

/-- Python `s.split(c)` (split on every occurrence of a character). -/
def splitAllChar (c : Char) : List Char → List (List Char)
  | [] => [[]]
  | x :: xs =>
    let r := splitAllChar c xs
    if x = c then [] :: r else (x :: r.headD []) :: r.tail

/-- Modelled from the spec's words (claim C2): split `R` by LF and count
the non-terminal lines, i.e. all segments except a trailing empty one. -/
def lfNonTerminalCount (s : List Char) : Nat :=
  let parts := splitAllChar '\n' s
  parts.length - (if (parts.getLastD []).isEmpty then 1 else 0)

/-- Lone carriage returns of a string: occurrences of `\r` not directly
followed by `\n`. -/
def loneCRCount : List Char → Nat
  | [] => 0
  | x :: xs =>
    if x = '\r' then
      match xs with
      | [] => 1
      | y :: rest => if y = '\n' then loneCRCount rest else 1 + loneCRCount (y :: rest)
    else loneCRCount xs

/-- First-binding lookup in an association list (Python `d[k]` once keys
are unique). -/
def lookupAssoc (m : List (List Char × List Char)) (k : List Char) :
    Option (List Char) :=
  (m.find? fun kv => kv.1 = k).map Prod.snd

/-- Concrete running buffer for claim C7: thirty-one `x` followed by one
hundred `a` (length 131). -/
def degenRespCex : List Char := repeatList (lc "x") 31 ++ repeatList (lc "a") 100

/-- Concrete sources string for claim C7: one hundred characters, so the
threshold is `T = 100`. -/
def degenSourcesCex : List Char := repeatList (lc "s") 100

/-- Concrete pending entry (index 0) used in witness instantiations. -/
def entA : Entry := ⟨0, lc "a", none, none, none, []⟩

/-- Concrete pending entry (index 1) used in witness instantiations. -/
def entB : Entry := ⟨1, lc "b", none, none, none, []⟩

/-- Concrete pending entry (index 2) used in witness instantiations. -/
def entC : Entry := ⟨2, lc "c", none, none, none, []⟩

/-- `entA` with a translation attached, as a worker would return it. -/
def entAok : Entry := ⟨0, lc "a", none, some (lc "t"), none, []⟩

/-- Concrete pre-translation dictionary for the C10 witness. -/
def c10pre : List (List Char × List Char) := [(lc "A", lc "X")]

/-- Concrete original file row for the C10 witness: source `AB`, one
passthrough key. -/
def c10row : Row := ⟨some (lc "AB"), none, none, none, [(lc "k", lc "v")]⟩

/-- The pending batch obtained from `c10row` at array position 3 after
the pre-translation dictionary. -/
def c10sources : List Entry := [applyPreDict c10pre (toEntry 3 c10row)]

/-- The result list of a successful one-line reply `t` for `c10sources`. -/
def c10rs : List Entry :=
  [⟨3, lc "XB", none, some (lc "t"), none, [(lc "k", lc "v")]⟩]

end TkTransl

-- sanity checks for the primitives (kernel-evaluable)
example : TkTransl.pyReplace (TkTransl.lc "aXbXc") (TkTransl.lc "X") (TkTransl.lc "YY") =
    TkTransl.lc "aYYbYYc" := by decide
example : TkTransl.pyReplace (TkTransl.lc "abc") (TkTransl.lc "") (TkTransl.lc "Z") =
    TkTransl.lc "ZaZbZcZ" := by decide
example : TkTransl.pySplitlines (TkTransl.lc "a\nb\n") = [TkTransl.lc "a", TkTransl.lc "b"] := by
  decide
example : TkTransl.pySplitlines (TkTransl.lc "a\rb") = [TkTransl.lc "a", TkTransl.lc "b"] := by
  decide
example : TkTransl.pySplitlines (TkTransl.lc "a\r\nb") = [TkTransl.lc "a", TkTransl.lc "b"] := by
  decide
example : TkTransl.pySplitlines (TkTransl.lc "") = [] := by decide
example : TkTransl.pySplitlines (TkTransl.lc "\n") = [[]] := by decide
example : TkTransl.natDec 65536 = TkTransl.lc "65536" := by decide
example : TkTransl.splitFirstChar '-' (TkTransl.lc "ab-cd-e") =
    (TkTransl.lc "ab", TkTransl.lc "cd-e") := by decide
example : TkTransl.takeBeforeLastChar '-' (TkTransl.lc "ab-cd-e") = TkTransl.lc "ab-cd" := by
  decide
example : TkTransl.containsSub (TkTransl.lc "bc") (TkTransl.lc "abcd") = true := by decide
example : TkTransl.containsSub (TkTransl.lc "bd") (TkTransl.lc "abcd") = false := by decide
example : TkTransl.jsonLoads (TkTransl.lc "[DONE]") = none := rfl
example : TkTransl.lineKind (TkTransl.lc "data: [DONE]") = .fail := rfl
example :
    TkTransl.lineKind
      (TkTransl.lc "data: \x7b\"choices\": [\x7b\"delta\": \x7b\"content\": \"hi\"\x7d\x7d]\x7d") =
    .frag (some (.str (TkTransl.lc "hi"))) := rfl
example :
    TkTransl.lineKind
      (TkTransl.lc "data: \x7b\"choices\": [\x7b\"finish_reason\": \"stop\", \"delta\": \x7b\"content\": \"\"\x7d\x7d]\x7d") =
    .finish := rfl

namespace TkTransl

/-! ## Helper lemmas -/

lemma digitChar_val {d : Nat} (h : d < 10) : (Nat.digitChar d).toNat - 48 = d := by
  interval_cases d <;> decide

lemma decodeDec_append_digit (xs : List Char) (c : Char) :
    decodeDec (xs ++ [c]) = 10 * decodeDec xs + (c.toNat - 48) := by
  simp [decodeDec, List.foldl_append]

lemma natDecAux_decode : ∀ fuel n, n < 10 ^ fuel → decodeDec (natDecAux fuel n) = n := by
  intro fuel
  induction fuel with
  | zero =>
    intro n hn
    interval_cases n
    simp [natDecAux, decodeDec]
  | succ fuel ih =>
    intro n hn
    by_cases h : n < 10
    · simp [natDecAux, h, decodeDec, digitChar_val h]
    · rw [natDecAux, if_neg h, decodeDec_append_digit,
        ih (n / 10) (by rw [Nat.div_lt_iff_lt_mul (by norm_num)]; rw [pow_succ] at hn; exact hn),
        digitChar_val (Nat.mod_lt _ (by norm_num))]
      omega

lemma decode_natDec (n : Nat) : decodeDec (natDec n) = n :=
  natDecAux_decode (n + 1) n
    (lt_of_lt_of_le (Nat.lt_pow_self (by norm_num) n)
      (Nat.pow_le_pow_right (by norm_num) (Nat.le_succ n)))

lemma natDec_inj {m n : Nat} (h : natDec m = natDec n) : m = n := by
  have := congrArg decodeDec h
  rwa [decode_natDec, decode_natDec] at this

lemma mkToken_decode (base : List Char) (r : Nat) :
    decodeDec (((mkToken base r).drop (base.length + 2)).dropLast) = r := by
  have h : mkToken base r = ('<' :: base ++ ['-']) ++ (natDec r ++ ['>']) := by
    simp [mkToken]
  rw [h, show base.length + 2 = ('<' :: base ++ ['-']).length by simp,
    List.drop_left]
  simp [decode_natDec]

lemma mkToken_inj {base : List Char} {r₁ r₂ : Nat}
    (h : mkToken base r₁ = mkToken base r₂) : r₁ = r₂ := by
  have h2 := congrArg (fun t => decodeDec ((t.drop (base.length + 2)).dropLast)) h
  simpa [mkToken_decode] using h2

/-- Characterisation of the attempt loop of the placeholder minter. -/
lemma genTokenGo_spec (base text : List Char) (draws : Nat → Nat) :
    ∀ fuel i₀,
      (∀ t, genTokenGo base text draws fuel i₀ = some t →
        (∃ j, i₀ ≤ j ∧ j < i₀ + fuel ∧ t = mkToken base (draws j)) ∧
          containsSub t text = false) ∧
      (genTokenGo base text draws fuel i₀ = none ↔
        ∀ j, i₀ ≤ j → j < i₀ + fuel →
          containsSub (mkToken base (draws j)) text = true) := by
  intro fuel
  induction fuel with
  | zero =>
    intro i₀
    refine ⟨fun t ht => by simp [genTokenGo] at ht, ?_⟩
    simp [genTokenGo]
    omega
  | succ fuel ih =>
    intro i₀
    constructor
    · intro t ht
      rw [genTokenGo] at ht
      by_cases hc : containsSub (mkToken base (draws i₀)) text
      · rw [if_pos hc] at ht
        obtain ⟨⟨j, hj1, hj2, hj3⟩, h4⟩ := (ih (i₀ + 1)).1 t ht
        exact ⟨⟨j, by omega, by omega, hj3⟩, h4⟩
      · rw [if_neg hc] at ht
        cases ht
        exact ⟨⟨i₀, le_refl _, by omega, rfl⟩, by simpa using hc⟩
    · rw [genTokenGo]
      by_cases hc : containsSub (mkToken base (draws i₀)) text
      · rw [if_pos hc, (ih (i₀ + 1)).2]
        constructor
        · intro h j hj1 hj2
          rcases Nat.eq_or_lt_of_le hj1 with h1 | h1
          · exact h1 ▸ hc
          · exact h j h1 (by omega)
        · intro h j hj1 hj2
          exact h j (by omega) (by omega)
      · rw [if_neg hc]
        constructor
        · intro h
          exact absurd h (by simp)
        · intro h
          exact absurd (h i₀ (le_refl _) (by omega)) (by simpa using hc)

/-! ## Claim C5 -/

/-- C5 (amended): for every base, corpus and sequence of draws of
`random.randint(0, 2**16)` (each bounded by `2 ^ 16` inclusive),
`generate_placeholder_token` returns a token of the form
`"<" + base + "-" + r + ">"` with `r ≤ 2 ^ 16` that is not a substring of
the corpus, and it fails (raises) exactly when the tokens of all ten
attempts occur in the corpus. -/
theorem C5_mint_token_range (base text : List Char) (draws : Nat → Nat)
    (hd : ∀ i, draws i ≤ 2 ^ 16) :
    (∀ t, generatePlaceholderToken base text draws = some t →
      (∃ r, r ≤ 2 ^ 16 ∧ t = mkToken base r) ∧ containsSub t text = false) ∧
    (generatePlaceholderToken base text draws = none ↔
      ∀ j < 10, containsSub (mkToken base (draws j)) text = true) := by
  constructor
  · intro t ht
    obtain ⟨⟨j, _, _, hj3⟩, h4⟩ := (genTokenGo_spec base text draws 10 0).1 t ht
    exact ⟨⟨draws j, hd j, hj3⟩, h4⟩
  · unfold generatePlaceholderToken
    rw [(genTokenGo_spec base text draws 10 0).2]
    constructor
    · intro h j hj
      exact h j (Nat.zero_le _) (by omega)
    · intro h j _ hj
      exact h j (by omega)

/-- Witness for C5: with constant draw `7` and corpus `"x"`, the minter
returns `"<NL-7>"`, which is in range and not a substring of the corpus. -/
theorem C5_mint_token_range_witness :
    (∃ r, r ≤ 2 ^ 16 ∧ lc "<NL-7>" = mkToken (lc "NL") r) ∧
      containsSub (lc "<NL-7>") (lc "x") = false :=
  (C5_mint_token_range (lc "NL") (lc "x") (fun _ => 7) (fun _ => by norm_num)).1
    (lc "<NL-7>") rfl

/-- C5 counterexample: `random.randint(0, 2**16)` is inclusive, so the
draw `65536` is possible; the resulting token `"<NL-65536>"` does not
embed any 16-bit integer, refuting "r a uniformly random 16-bit
integer". -/
theorem C5_counterexample :
    generatePlaceholderToken (lc "NL") [] (fun _ => 65536) = some (lc "<NL-65536>") ∧
      ¬∃ r, r < 2 ^ 16 ∧ lc "<NL-65536>" = mkToken (lc "NL") r := by
  refine ⟨rfl, ?_⟩
  rintro ⟨r, hr, heq⟩
  have h : mkToken (lc "NL") 65536 = mkToken (lc "NL") r := by
    rw [← heq]; rfl
  have := mkToken_inj h
  omega

end TkTransl

namespace TkTransl

/-! ## Claim C9 -/

lemma splitOnceSub_decomp {sep : List Char} : ∀ {s pre post : List Char},
    splitOnceSub sep s = some (pre, post) → s = pre ++ sep ++ post := by
  intro s
  induction s with
  | nil =>
    intro pre post h
    by_cases he : sep.isEmpty
    · simp only [splitOnceSub, if_pos he] at h
      injection h with h1
      injection h1 with h1 h2
      subst h1; subst h2
      simp [List.isEmpty_iff.mp he]
    · simp only [splitOnceSub, if_neg he] at h
      cases h
  | cons x xs ih =>
    intro pre post h
    rw [splitOnceSub] at h
    by_cases hp : sep.isPrefixOf (x :: xs) = true
    · rw [if_pos hp] at h
      injection h with h1
      injection h1 with h1 h2
      subst h1; subst h2
      rcases List.isPrefixOf_iff_prefix.mp hp with ⟨rest, hrest⟩
      rw [← hrest, List.nil_append, List.drop_left]
    · rw [if_neg hp] at h
      cases hsplit : splitOnceSub sep xs with
      | none => rw [hsplit] at h; cases h
      | some p =>
        rw [hsplit] at h
        cases p with
        | mk a b =>
          injection h with h1
          injection h1 with h1 h2
          subst h1; subst h2
          simpa using congrArg (x :: ·) (ih hsplit)

lemma splitOnceSub_pre_free {sep : List Char} (hsep : sep ≠ []) :
    ∀ {s pre post : List Char},
      splitOnceSub sep s = some (pre, post) → containsSub sep pre = false := by
  intro s
  induction s with
  | nil =>
    intro pre post h
    rw [splitOnceSub,
      if_neg (by cases sep with
        | nil => exact absurd rfl hsep
        | cons c cs => simp)] at h
    cases h
  | cons x xs ih =>
    intro pre post h
    rw [splitOnceSub] at h
    by_cases hp : sep.isPrefixOf (x :: xs) = true
    · rw [if_pos hp] at h
      injection h with h1
      injection h1 with h1 h2
      subst h1
      cases sep with
      | nil => exact absurd rfl hsep
      | cons c cs => rfl
    · rw [if_neg hp] at h
      cases hsplit : splitOnceSub sep xs with
      | none => rw [hsplit] at h; cases h
      | some p =>
        rw [hsplit] at h
        cases p with
        | mk a b =>
          injection h with h1
          injection h1 with h1 h2
          subst h1
          have hfree : containsSub sep a = false := ih hsplit
          have hdec := splitOnceSub_decomp hsplit
          simp only [containsSub, Bool.or_eq_false_iff]
          refine ⟨?_, hfree⟩
          cases hpp : sep.isPrefixOf (x :: a)
          · rfl
          · exfalso
            apply hp
            apply List.isPrefixOf_iff_prefix.mpr
            have hxa : (x :: a) <+: (x :: xs) := by
              rw [hdec]
              exact ⟨sep ++ b, by simp⟩
            exact (List.isPrefixOf_iff_prefix.mp hpp).trans hxa

lemma containsSub_of_isPrefixOf {pat s : List Char}
    (h : pat.isPrefixOf s = true) : containsSub pat s = true := by
  cases s with
  | nil =>
    have h2 := List.isPrefixOf_iff_prefix.mp h
    rw [List.prefix_nil] at h2
    subst h2
    rfl
  | cons x xs => simp [containsSub, h]

lemma containsSub_of_cons {c : Char} {t s : List Char}
    (h : containsSub (c :: t) s = true) : containsSub t s = true := by
  induction s with
  | nil => simp [containsSub] at h
  | cons x xs ih =>
    simp only [containsSub, Bool.or_eq_true] at h
    simp only [containsSub, Bool.or_eq_true]
    rcases h with h | h
    · rcases List.isPrefixOf_iff_prefix.mp h with ⟨rest, hrest⟩
      injection hrest with h1 h2
      exact Or.inr (containsSub_of_isPrefixOf (List.isPrefixOf_iff_prefix.mpr ⟨rest, h2⟩))
    · exact Or.inr (ih h)

lemma pyReplaceAux_not_contained {pat rep : List Char} :
    ∀ fuel s, containsSub pat s = false → pyReplaceAux pat rep fuel s = s := by
  intro fuel
  induction fuel with
  | zero => intro s _; rfl
  | succ fuel ih =>
    intro s hs
    cases s with
    | nil => rfl
    | cons x xs =>
      simp only [containsSub, Bool.or_eq_false_iff] at hs
      rw [pyReplaceAux, if_neg (by simp [hs.1]), ih xs hs.2]

lemma pyReplace_not_contained {s pat rep : List Char}
    (hne : pat ≠ []) (h : containsSub pat s = false) :
    pyReplace s pat rep = s := by
  rw [pyReplace,
    if_neg (by cases pat with
      | nil => exact absurd rfl hne
      | cons c cs => simp),
    pyReplaceAux_not_contained s.length s h]

/-- The `src.replace("\\->", "->")` of `utils/load.py::load_dicts` is dead
code: the split at the first `->` happens first, so the split-off `src`
can never contain `->`, hence never `\->`. -/
lemma loadDicts_unescape_dead {line pre post : List Char}
    (h : splitOnceSub (lc "->") line = some (pre, post)) :
    pyReplace pre (lc "\\->") (lc "->") = pre := by
  have h1 : containsSub (lc "->") pre = false :=
    splitOnceSub_pre_free (by decide) h
  have h2 : containsSub (lc "\\->") pre = false := by
    cases h3 : containsSub (lc "\\->") pre
    · rfl
    · exfalso
      have h4 : containsSub ('\\' :: lc "->") pre = true := h3
      exact absurd (containsSub_of_cons h4) (by simp [h1])
  exact pyReplace_not_contained (by decide) h2

/-- C9: the claim is what both loaders were meant to do, but neither does
it.  On the failing line `a\->b->c`, `utils.py::read_gpt_dict` (which has
no un-escaping at all) and `utils/load.py::load_dicts` (whose
`replace("\\->", "->")` runs only after the line was already split at the
first `->`, so it can never fire) both produce the term
`{src: "a\\", target: "b->c"}` instead of the claimed
`{src: "a->b", target: "c"}`. -/
theorem C9_gpt_dict_unescape :
    readGptDictLine (lc "a\\->b->c") = some ⟨lc "a\\", lc "b->c", none⟩ ∧
      loadDictsGptLine (lc "a\\->b->c") = some ⟨lc "a\\", lc "b->c", none⟩ ∧
      readGptDictLine (lc "a\\->b->c") ≠ some ⟨lc "a->b", lc "c", none⟩ ∧
      loadDictsGptLine (lc "a\\->b->c") ≠ some ⟨lc "a->b", lc "c", none⟩ := by
  refine ⟨rfl, rfl, ?_, ?_⟩ <;> decide

end TkTransl

namespace TkTransl

/-! ## Claim C3 -/

lemma lineKind_done_fail : lineKind (lc "data: [DONE]") = .fail := rfl

lemma askStreamGo_reaches_fail {bad : List Char} (hbad : lineKind bad = .fail) :
    ∀ (pre : List (List Char)) (post : List (List Char)) (acc : List Json),
      (∀ l ∈ pre, lineKind l = .skip ∨ ∃ c, lineKind l = .frag c) →
      askStreamGo (pre ++ bad :: post) acc = .errFrame := by
  intro pre
  induction pre with
  | nil =>
    intro post acc _
    simp only [List.nil_append, askStreamGo, hbad]
  | cons l ls ih =>
    intro post acc hpre
    have hl := hpre l (List.mem_cons_self l ls)
    have hrest : ∀ m ∈ ls, lineKind m = .skip ∨ ∃ c, lineKind m = .frag c :=
      fun m hm => hpre m (List.mem_cons_of_mem l hm)
    rcases hl with hl | ⟨c, hl⟩
    · simp only [List.cons_append, askStreamGo, hl]
      exact ih post acc hrest
    · cases c with
      | none =>
        simp only [List.cons_append, askStreamGo, hl]
        exact ih post acc hrest
      | some v =>
        simp only [List.cons_append, askStreamGo, hl]
        exact ih post (v :: acc) hrest

/-- C3 (amended): the streaming client never handles `[DONE]`: if the
body contains a line `data: [DONE]` and every earlier line is empty or an
ordinary delta frame (so that the stream is not terminated early by a
`finish_reason`), the client JSON-parses the stripped `[DONE]`, which
fails and aborts the stream with an uncaught exception instead of a
normal termination.  Normal termination happens only on a truthy
`finish_reason` frame or when the body ends. -/
theorem C3_done_line_fails (pre post : List (List Char))
    (hpre : ∀ l ∈ pre, lineKind l = .skip ∨ ∃ c, lineKind l = .frag c) :
    askStream 200 (pre ++ lc "data: [DONE]" :: post) = .errFrame := by
  rw [askStream, if_neg (by simp)]
  exact askStreamGo_reaches_fail lineKind_done_fail pre post [] hpre

/-- Witness for C3: one well-formed delta frame followed by `data: [DONE]`. -/
theorem C3_done_line_fails_witness :
    askStream 200
      [lc "data: \x7b\"choices\": [\x7b\"delta\": \x7b\"content\": \"hi\"\x7d\x7d]\x7d",
        lc "data: [DONE]"] = .errFrame := by
  have h := C3_done_line_fails
    [lc "data: \x7b\"choices\": [\x7b\"delta\": \x7b\"content\": \"hi\"\x7d\x7d]\x7d"] []
    (by
      intro l hl
      rw [List.mem_singleton] at hl
      subst hl
      exact Or.inr ⟨some (.str (lc "hi")), rfl⟩)
  simpa using h

/-- C3 counterexample: on a 200 response whose body is the single line
`data: [DONE]`, the client raises a JSON decoding error; it does not
terminate the fragment stream normally (with the empty fragment list). -/
theorem C3_counterexample :
    askStream 200 [lc "data: [DONE]"] = .errFrame ∧
      (AskResult.errFrame ≠ AskResult.ok []) :=
  ⟨rfl, fun h => AskResult.noConfusion h⟩

end TkTransl

namespace TkTransl

/-! ## Claim C1 -/

lemma insertByIndex_perm (e : Entry) : ∀ l : List Entry, (insertByIndex e l).Perm (e :: l) := by
  intro l
  induction l with
  | nil => exact List.Perm.refl _
  | cons x xs ih =>
    rw [insertByIndex]
    by_cases h : e.index ≤ x.index
    · rw [if_pos h]
    · rw [if_neg h]
      exact (List.Perm.cons x ih).trans (List.Perm.swap e x xs)

lemma sortByIndex_perm : ∀ l : List Entry, (sortByIndex l).Perm l := by
  intro l
  induction l with
  | nil => exact List.Perm.refl _
  | cons x xs ih =>
    rw [sortByIndex]
    exact (insertByIndex_perm x (sortByIndex xs)).trans (List.Perm.cons x ih)

lemma dispatchNext_batchSize (st : DispState) :
    (dispatchNext st).1.batchSize = st.batchSize := by
  rw [dispatchNext]
  by_cases h : st.queue.isEmpty <;> simp [h]

lemma dispatchNext_done (st : DispState) :
    (dispatchNext st).1.done = st.done := by
  rw [dispatchNext]
  by_cases h : st.queue.isEmpty <;> simp [h]

lemma dispatchNext_perm (st : DispState) :
    ((dispatchNext st).1.queue ++ (dispatchNext st).2).Perm st.queue := by
  rw [dispatchNext]
  by_cases h : st.queue.isEmpty
  · simp [h]
  · simp only [if_neg h]
    exact (List.perm_append_comm).trans
      (by rw [List.take_append_drop st.batchSize st.queue])

/-- C1 (amended): when a worker resolves with a `TranslationCountError`,
the dispatcher returns the in-flight batch to the queue (entries are
redistributed between the re-sorted queue and the worker's next batch)
and sets `batch_size := batch_size // 2` — plain integer halving with no
lower bound, so from `batch_size = 1` it becomes `0`; for every other
error kind the batch is likewise returned and `batch_size` is unchanged.
The `done` list is untouched on every error path. -/
theorem C1_halving_no_floor (initBatch : Nat)
    (postDict : List (List Char × List Char)) (s : DispState)
    (proc : List Entry) (a b : Nat) :
    (stepWorker initBatch postDict s proc (.err (.count a b))).1.batchSize =
      s.batchSize / 2 ∧
    (stepWorker initBatch postDict s proc (.err .otherTranslate)).1.batchSize =
      s.batchSize ∧
    ((stepWorker initBatch postDict s proc (.err (.count a b))).1.queue ++
        (stepWorker initBatch postDict s proc (.err (.count a b))).2).Perm
      (s.queue ++ proc) ∧
    ((stepWorker initBatch postDict s proc (.err .otherTranslate)).1.queue ++
        (stepWorker initBatch postDict s proc (.err .otherTranslate)).2).Perm
      (s.queue ++ proc) ∧
    (stepWorker initBatch postDict s proc (.err (.count a b))).1.done = s.done ∧
    (stepWorker initBatch postDict s proc (.err .otherTranslate)).1.done = s.done := by
  refine ⟨?_, ?_, ?_, ?_, ?_, ?_⟩
  · rw [stepWorker, dispatchNext_batchSize]
  · rw [stepWorker, dispatchNext_batchSize]
    intro sc tc h
    cases h
  · exact (dispatchNext_perm _).trans (sortByIndex_perm _)
  · exact (dispatchNext_perm _).trans (sortByIndex_perm _)
  · rw [stepWorker, dispatchNext_done]
  · rw [stepWorker, dispatchNext_done]
    intro sc tc h
    cases h

/-- C1 counterexample: with `batch_size = 1` and a worker resolving with
`TranslationCountError`, the code sets the batch size to `1 // 2 = 0`,
not to `max(1, 1 / 2) = 1`; the dynamic batch size does drop below 1. -/
theorem C1_counterexample :
    (stepWorker 7 [] ⟨[], [], 1⟩
        [⟨0, lc "x", none, none, none, []⟩, ⟨1, lc "y", none, none, none, []⟩]
        (.err (.count 2 1))).1.batchSize = 0 ∧
      (0 : Nat) ≠ max 1 (1 / 2) := ⟨rfl, by decide⟩

end TkTransl

namespace TkTransl

/-! ## Claim C8 -/

lemma count_pyReplaceAux_of_not_mem {c : Char} {pat rep : List Char}
    (hp : c ∉ pat) (hr : c ∉ rep) :
    ∀ fuel s, (pyReplaceAux pat rep fuel s).count c = s.count c := by
  intro fuel
  induction fuel with
  | zero => intro s; rfl
  | succ fuel ih =>
    intro s
    cases s with
    | nil => rfl
    | cons x xs =>
      rw [pyReplaceAux]
      by_cases hpre : pat.isPrefixOf (x :: xs) = true
      · rw [if_pos hpre, List.count_append, List.count_eq_zero.mpr hr, Nat.zero_add,
          ih]
        rcases List.isPrefixOf_iff_prefix.mp hpre with ⟨rest, hrest⟩
        rw [← hrest, List.drop_left, List.count_append,
          List.count_eq_zero.mpr hp, Nat.zero_add]
      · rw [if_neg hpre, List.count_cons, List.count_cons, ih]

lemma countCR_pyReplaceAux_crlf :
    ∀ fuel s, s.length ≤ fuel →
      (pyReplaceAux (lc "\r\n") (lc "\n") fuel s).count '\r' = loneCRCount s := by
  intro fuel
  induction fuel with
  | zero =>
    intro s hs
    rw [Nat.le_zero, List.length_eq_zero] at hs
    subst hs
    rfl
  | succ fuel ih =>
    intro s hs
    cases s with
    | nil => rfl
    | cons x xs =>
      rw [pyReplaceAux]
      by_cases hpre : (lc "\r\n").isPrefixOf (x :: xs) = true
      · rcases List.isPrefixOf_iff_prefix.mp hpre with ⟨rest, hrest⟩
        have hx : x = '\r' := by
          have h2 := congrArg (fun l => l.headD ' ') hrest
          simpa using h2.symm
        have hxs : xs = '\n' :: rest := by
          have h2 := congrArg List.tail hrest
          simpa using h2.symm
        subst hx
        subst hxs
        rw [if_pos hpre]
        simp only [List.count_append]
        rw [show ((lc "\n").count '\r') = 0 from rfl, Nat.zero_add]
        rw [show (('\r' :: '\n' :: rest).drop (lc "\r\n").length) = rest from rfl]
        rw [ih rest (by simp at hs; omega)]
        rw [show loneCRCount ('\r' :: '\n' :: rest) = loneCRCount rest from by
          rw [loneCRCount.eq_def]; simp]
      · rw [if_neg hpre, List.count_cons, ih xs (by simp at hs; omega)]
        by_cases hx : x = '\r'
        · subst hx
          cases xs with
          | nil =>
            rw [show loneCRCount ['\r'] = 1 from by rw [loneCRCount.eq_def]; simp,
              show loneCRCount ([] : List Char) = 0 from rfl]
            simp
          | cons y rest =>
            have hy : y ≠ '\n' := by
              intro hy
              subst hy
              exact (by simpa using hpre : ¬lc "\r\n" <+: '\r' :: '\n' :: rest)
                ⟨rest, rfl⟩
            rw [show loneCRCount ('\r' :: y :: rest) = 1 + loneCRCount (y :: rest) from by
              rw [loneCRCount.eq_def]; simp [hy]]
            simp
            omega
        · rw [show loneCRCount (x :: xs) = loneCRCount xs from by
            rw [loneCRCount.eq_def]; simp [hx]]
          simp [hx]

lemma countCR_normalizeBody {nl : List Char} (hnl : '\r' ∉ nl) (s : List Char) :
    (normalizeBody nl s).count '\r' = loneCRCount s := by
  rw [normalizeBody, pyReplace, if_neg (by decide), pyReplace, if_neg (by decide)]
  rw [count_pyReplaceAux_of_not_mem (by decide) hnl]
  exact countCR_pyReplaceAux_crlf _ s (le_refl _)

/-- C8 (amended): the prompt assembler normalises every CRLF sequence to
LF before LFs are replaced by the newline placeholder, but it does not
touch a lone CR: the transformed string contains exactly one CR for each
CR of the source that is not directly followed by LF.  Both the batch
path and the history path use this same normalisation. -/
theorem C8_crlf_normalized_lone_cr_kept (nl qs qe s : List Char)
    (hnl : '\r' ∉ nl) :
    (normalizeBody nl s).count '\r' = loneCRCount s ∧
      (∀ e : Entry, e.speaker = none →
        processSource nl qs qe e = normalizeBody nl e.source ∧
          processHistory nl qs qe e = normalizeBody nl (e.target.getD [])) := by
  refine ⟨countCR_normalizeBody hnl s, fun e he => ⟨?_, ?_⟩⟩
  · rw [processSource, he]
  · rw [processHistory, he]

/-- Witness for C8: with placeholder `<NL-1>` and source `a\r\nb\rc`
(one CRLF, one lone CR) the normalised text keeps exactly one CR. -/
theorem C8_crlf_normalized_lone_cr_kept_witness :
    (normalizeBody (lc "<NL-1>") (lc "a\r\nb\rc")).count '\r' =
        loneCRCount (lc "a\r\nb\rc") ∧
      processSource (lc "<NL-1>") (lc "<QS-1>") (lc "<QE-1>")
          ⟨0, lc "s", none, none, none, []⟩ =
        normalizeBody (lc "<NL-1>") (lc "s") := by
  have h := C8_crlf_normalized_lone_cr_kept (lc "<NL-1>") (lc "<QS-1>")
    (lc "<QE-1>") (lc "a\r\nb\rc") (by decide)
  exact ⟨h.1, (h.2 ⟨0, lc "s", none, none, none, []⟩ rfl).1⟩

/-- C8 counterexample: the claim says a source containing a CR not
followed by LF yields a transformed string with no CR, but the code only
replaces `\r\n` (`.replace("\r\n", "\n")`), so the lone CR of `a\rb`
survives into the prompt line. -/
theorem C8_counterexample :
    processSource (lc "<NL-1>") (lc "<QS-1>") (lc "<QE-1>")
        ⟨0, lc "a\rb", none, none, none, []⟩ = lc "a\rb" ∧
      (lc "a\rb").contains '\r' = true := ⟨rfl, by decide⟩

end TkTransl

namespace TkTransl

/-! ## Claim C2 -/

/-- C2 (amended): `batch_translate` fails with
`CountMismatch(expected = |batch|, got = lines)` iff the number of lines
of the accumulated reply as computed by Python `str.splitlines` (which
also splits on CR, CRLF and the other Unicode line boundaries, not only
on LF) differs from `|batch|` and `|batch| ≠ 1`; when `|batch| = 1` and
the count differs, all LFs of the reply are collapsed into the empty
string and the reply is treated as a single line, with no error raised. -/
theorem C2_count_mismatch_iff (nl qs qe : List Char) (sources : List Entry)
    (resp : List Char) :
    ((∃ a b, batchTranslatePost nl qs qe sources resp = .error (.count a b)) ↔
      (pySplitlines resp).length ≠ sources.length ∧ sources.length ≠ 1) ∧
    (∀ a b, batchTranslatePost nl qs qe sources resp = .error (.count a b) →
      a = sources.length ∧ b = (pySplitlines resp).length) ∧
    (sources.length = 1 → (pySplitlines resp).length ≠ 1 →
      batchTranslatePost nl qs qe sources resp =
        .ok (List.zipWith (restoreEntry nl qs qe) sources
          [pyReplace resp (lc "\n") []])) := by
  refine ⟨⟨?_, ?_⟩, ?_, ?_⟩
  · rintro ⟨a, b, hab⟩
    simp only [batchTranslatePost] at hab
    by_cases h1 : sources.length ≠ (pySplitlines resp).length
    · rw [if_pos h1] at hab
      by_cases h2 : sources.length = 1
      · rw [if_pos h2] at hab
        cases hab
      · rw [if_neg h2] at hab
        exact ⟨fun h => h1 h.symm, h2⟩
    · rw [if_neg h1] at hab
      cases hab
  · rintro ⟨h1, h2⟩
    refine ⟨sources.length, (pySplitlines resp).length, ?_⟩
    simp only [batchTranslatePost]
    rw [if_pos (fun h => h1 h.symm), if_neg h2]
  · intro a b hab
    simp only [batchTranslatePost] at hab
    by_cases h1 : sources.length ≠ (pySplitlines resp).length
    · rw [if_pos h1] at hab
      by_cases h2 : sources.length = 1
      · rw [if_pos h2] at hab
        cases hab
      · rw [if_neg h2] at hab
        injection hab with h3
        injection h3 with h3 h4
        exact ⟨h3.symm, h4.symm⟩
    · rw [if_neg h1] at hab
      cases hab
  · intro h1 h2
    simp only [batchTranslatePost]
    rw [if_pos (by omega), if_pos h1]

/-- Witness for C2: a one-entry batch whose reply has two lines recovers
to a single collapsed line without raising. -/
theorem C2_count_mismatch_iff_witness :
    batchTranslatePost (lc "<NL-1>") (lc "<QS-1>") (lc "<QE-1>")
        [⟨0, lc "AB", none, none, none, []⟩] (lc "X\nY") =
      .ok (List.zipWith (restoreEntry (lc "<NL-1>") (lc "<QS-1>") (lc "<QE-1>"))
        [⟨0, lc "AB", none, none, none, []⟩]
        [pyReplace (lc "X\nY") (lc "\n") []]) :=
  (C2_count_mismatch_iff (lc "<NL-1>") (lc "<QS-1>") (lc "<QE-1>")
    [⟨0, lc "AB", none, none, none, []⟩] (lc "X\nY")).2.2 rfl (by decide)

/-- C2 counterexample: for the reply `a\rb` and a batch of two, the
number of (LF-split) non-terminal lines is 1 ≠ 2, so the claim demands a
`CountMismatch`; the code counts lines with `splitlines`, which also
splits at the CR, finds 2 lines and succeeds. -/
theorem C2_counterexample :
    lfNonTerminalCount (lc "a\rb") = 1 ∧ (1 : Nat) ≠ 2 ∧
      batchTranslatePost (lc "<NL-1>") (lc "<QS-1>") (lc "<QE-1>")
          [⟨0, lc "x", none, none, none, []⟩, ⟨1, lc "y", none, none, none, []⟩]
          (lc "a\rb") =
        .ok [⟨0, lc "x", none, some (lc "a"), none, []⟩,
          ⟨1, lc "y", none, some (lc "b"), none, []⟩] :=
  ⟨by decide, by decide, rfl⟩

/-! ## Claim C4 -/

lemma splitFirstChar_of_decomp {c : Char} : ∀ {a b : List Char}, c ∉ a →
    splitFirstChar c (a ++ c :: b) = (a, b) := by
  intro a
  induction a with
  | nil =>
    intro b _
    simp [splitFirstChar]
  | cons x xs ih =>
    intro b hc
    rw [List.cons_append, splitFirstChar,
      if_neg (fun h => hc (by rw [← h]; exact List.mem_cons_self x xs)),
      ih (fun h => hc (List.mem_cons_of_mem x h))]

lemma takeBeforeLastChar_of_decomp {c : Char} : ∀ {t u : List Char}, c ∉ u →
    takeBeforeLastChar c (t ++ c :: u) = t := by
  intro t
  induction t with
  | nil =>
    intro u hc
    rw [List.nil_append, takeBeforeLastChar,
      if_neg (by simpa using hc), if_pos rfl]
  | cons x xs ih =>
    intro u hc
    rw [List.cons_append, takeBeforeLastChar,
      if_pos (by
        apply List.elem_eq_true_of_mem
        exact List.mem_append_right xs (List.mem_cons_self c u)),
      ih hc]

/-- C4: for a speaker entry whose restored reply line decomposes as
`ts ++ 「 ++ rest` with no `「` in `ts`, the validator sets
`target_speaker := ts`; the body is `rest` truncated at its last `」`
(when one occurs), with the placeholder tokens `QS`/`QE` replaced by
`「`/`」`, and `target` is that body.  For a speaker entry whose restored
line contains no `「`, `target` is the whole restored line and
`target_speaker` is not set. -/
theorem C4_speaker_reconstruction (nl qs qe : List Char) (e : Entry)
    (line sp : List Char) (hsp : e.speaker = some sp) :
    (∀ ts rest, pyReplace line nl (lc "\n") = ts ++ '「' :: rest → '「' ∉ ts →
      (restoreEntry nl qs qe e line).target_speaker = some ts ∧
      (∀ body u, rest = body ++ '」' :: u → '」' ∉ u →
        (restoreEntry nl qs qe e line).target =
          some (pyReplace (pyReplace body qs (lc "「")) qe (lc "」"))) ∧
      ('」' ∉ rest →
        (restoreEntry nl qs qe e line).target =
          some (pyReplace (pyReplace rest qs (lc "「")) qe (lc "」")))) ∧
    ('「' ∉ pyReplace line nl (lc "\n") →
      (restoreEntry nl qs qe e line).target = some (pyReplace line nl (lc "\n")) ∧
      (restoreEntry nl qs qe e line).target_speaker = e.target_speaker) := by
  constructor
  · intro ts rest hdec hts
    have hmem : (pyReplace line nl (lc "\n")).contains '「' = true := by
      apply List.elem_eq_true_of_mem
      rw [hdec]
      exact List.mem_append_right ts (List.mem_cons_self _ rest)
    have hsplit : splitFirstChar '「' (pyReplace line nl (lc "\n")) = (ts, rest) := by
      rw [hdec]
      exact splitFirstChar_of_decomp hts
    refine ⟨?_, ?_, ?_⟩
    · simp only [restoreEntry, hsp, hmem, if_pos, hsplit]
    · intro body u hrest hu
      have htrunc : takeBeforeLastChar '」' rest = body := by
        rw [hrest]
        exact takeBeforeLastChar_of_decomp hu
      have hcontains : rest.contains '」' = true := by
        apply List.elem_eq_true_of_mem
        rw [hrest]
        exact List.mem_append_right body (List.mem_cons_self _ u)
      simp only [restoreEntry, hsp, hmem, if_pos, hsplit, hcontains, htrunc]
    · intro hno
      have hcontains : rest.contains '」' = false := by
        cases h : rest.contains '」'
        · rfl
        · exact absurd (List.mem_of_elem_eq_true h) hno
      simp only [restoreEntry, hsp, hmem, if_pos, hsplit, hcontains]
      simp
  · intro hno
    have hmem : (pyReplace line nl (lc "\n")).contains '「' = false := by
      cases h : (pyReplace line nl (lc "\n")).contains '「'
      · rfl
      · exact absurd (List.mem_of_elem_eq_true h) hno
    constructor
    · simp only [restoreEntry, hsp, hmem]
      simp
    · simp only [restoreEntry, hsp, hmem]
      simp

end TkTransl

namespace TkTransl

/-- Witness for C4: entry spoken by 吹雪, reply line `Fubuki「早安」`. -/
theorem C4_speaker_reconstruction_witness :
    (restoreEntry (lc "<NL-1>") (lc "<QS-1>") (lc "<QE-1>")
        ⟨0, lc "おはよう", some (lc "吹雪"), none, none, []⟩
        (lc "Fubuki「早安」")).target_speaker = some (lc "Fubuki") ∧
      (restoreEntry (lc "<NL-1>") (lc "<QS-1>") (lc "<QE-1>")
          ⟨0, lc "おはよう", some (lc "吹雪"), none, none, []⟩
          (lc "Fubuki「早安」")).target =
        some (pyReplace (pyReplace (lc "早安") (lc "<QS-1>") (lc "「"))
          (lc "<QE-1>") (lc "」")) := by
  have h := (C4_speaker_reconstruction (lc "<NL-1>") (lc "<QS-1>") (lc "<QE-1>")
    ⟨0, lc "おはよう", some (lc "吹雪"), none, none, []⟩
    (lc "Fubuki「早安」") (lc "吹雪") rfl).1 (lc "Fubuki") (lc "早安」")
    (by decide) (by decide)
  exact ⟨h.1, h.2.1 (lc "早安") [] (by decide) (by decide)⟩

end TkTransl

namespace TkTransl

/-! ## Claim C7 -/

lemma checkDegen_true_length {resp : List Char} {T : Nat} (_hT : 0 < T)
    (h : checkDegen resp T = true) : 2 * T ≤ resp.length := by
  rw [checkDegen, List.any_eq_true] at h
  obtain ⟨l, hl, _⟩ := h
  rw [List.mem_range'_1] at hl
  have h2 : 2 ≤ resp.length / T := by omega
  calc 2 * T ≤ resp.length / T * T := Nat.mul_le_mul_right T h2
  _ ≤ resp.length := Nat.div_mul_le_self _ _

/-- C7 (amended): for a non-empty sources string the mid-stream
degeneration test reports degeneration if and only if
`|R| > 1.5 · |sources|`: the suffix-repetition scan of `check_degen` only
iterates when `|R| ≥ 2 · T` with `T = max(len(sources), 30)`, which
already implies the length condition, so the repetition clause never
contributes a detection of its own. -/
theorem C7_degen_iff_length (resp sources : List Char)
    (h : 1 ≤ sources.length) :
    degenDetector resp sources = true ↔
      2 * resp.length > 3 * sources.length := by
  rw [degenDetector, Bool.or_eq_true, decide_eq_true_eq]
  constructor
  · rintro (hc | hr)
    · have h2 := checkDegen_true_length
        (lt_of_lt_of_le (by norm_num) (le_max_right sources.length 30)) hc
      have h3 : sources.length ≤ max sources.length 30 := le_max_left _ _
      omega
    · exact hr
  · intro hr
    exact Or.inr hr

/-- Witness for C7: a 10-character reply against 2-character sources. -/
theorem C7_degen_iff_length_witness :
    degenDetector (lc "0123456789") (lc "ab") = true ↔
      2 * (lc "0123456789").length > 3 * (lc "ab").length :=
  C7_degen_iff_length (lc "0123456789") (lc "ab") (by decide)

set_option maxRecDepth 8000 in
/-- C7 counterexample: the buffer `x^31 ++ a^100` against 100-character
sources (`T = 100`) ends in 100 consecutive occurrences of its suffix
`a` with `|t| = 1 < 131/100`, so the claim's predicate holds, and
`131 ≤ 1.5 · 100`; yet the code detects nothing: `check_degen` iterates
over `range(1, 131 // 100) = []` and the length ratio is below 1.5. -/
theorem C7_counterexample :
    specDegen degenRespCex degenSourcesCex ∧
      degenDetector degenRespCex degenSourcesCex = false :=
  ⟨by decide, by decide⟩

end TkTransl

namespace TkTransl

/-! ## Claim C6 -/

lemma restoreEntry_index (nl qs qe : List Char) (e : Entry) (line : List Char) :
    (restoreEntry nl qs qe e line).index = e.index := by
  simp only [restoreEntry]
  cases hsp : e.speaker with
  | none => rfl
  | some sp =>
    split
    · split <;> rfl
    · rfl

lemma restoreEntry_source (nl qs qe : List Char) (e : Entry) (line : List Char) :
    (restoreEntry nl qs qe e line).source = e.source := by
  simp only [restoreEntry]
  cases hsp : e.speaker with
  | none => rfl
  | some sp =>
    split
    · split <;> rfl
    · rfl

lemma zipWith_restore_map {α : Type} (nl qs qe : List Char) (f : Entry → α)
    (hf : ∀ e line, f (restoreEntry nl qs qe e line) = f e) :
    ∀ (src : List Entry) (lines : List (List Char)), src.length = lines.length →
      (List.zipWith (restoreEntry nl qs qe) src lines).map f = src.map f := by
  intro src
  induction src with
  | nil => intro lines _; rfl
  | cons e es ih =>
    intro lines h
    cases lines with
    | nil => simp at h
    | cons l ls =>
      simp only [List.zipWith_cons_cons, List.map_cons, hf,
        ih ls (by simpa using h)]

lemma batchTranslatePost_map {α : Type} {nl qs qe : List Char} (f : Entry → α)
    (hf : ∀ e line, f (restoreEntry nl qs qe e line) = f e)
    {src rs : List Entry} {resp : List Char}
    (h : batchTranslatePost nl qs qe src resp = .ok rs) :
    rs.map f = src.map f := by
  simp only [batchTranslatePost] at h
  by_cases h1 : src.length ≠ (pySplitlines resp).length
  · rw [if_pos h1] at h
    by_cases h2 : src.length = 1
    · rw [if_pos h2] at h
      injection h with h3
      subst h3
      exact zipWith_restore_map nl qs qe f hf src _ (by simpa using h2)
    · rw [if_neg h2] at h
      cases h
  · rw [if_neg h1] at h
    injection h with h3
    subst h3
    push_neg at h1
    exact zipWith_restore_map nl qs qe f hf src _ h1

/-- Grounding for the C6 hypothesis: a successful `batch_translate`
returns exactly one result per batch entry, with the same `index` in the
same position. -/
lemma batchTranslatePost_indices {nl qs qe : List Char} {src rs : List Entry}
    {resp : List Char} (h : batchTranslatePost nl qs qe src resp = .ok rs) :
    rs.map Entry.index = src.map Entry.index :=
  batchTranslatePost_map Entry.index (restoreEntry_index nl qs qe) h

lemma sortByIndex_multiset (l : List Entry) :
    ((sortByIndex l).map Entry.index : Multiset Nat) =
      (l.map Entry.index : Multiset Nat) :=
  Multiset.coe_eq_coe.mpr ((sortByIndex_perm l).map Entry.index)

lemma dispatchNext_multiset (st : DispState) :
    (((dispatchNext st).1.queue.map Entry.index : Multiset Nat) +
        ((dispatchNext st).2.map Entry.index : Multiset Nat)) =
      (st.queue.map Entry.index : Multiset Nat) := by
  have h := (dispatchNext_perm st).map Entry.index
  rw [List.map_append] at h
  rw [Multiset.coe_add]
  exact Multiset.coe_eq_coe.mpr h

lemma dispatchNext_total (st : DispState) (others : List Entry) :
    ((((dispatchNext st).1.queue ++ ((dispatchNext st).2 ++ others) ++
          (dispatchNext st).1.done).map Entry.index : Multiset Nat)) =
      (st.queue.map Entry.index : Multiset Nat) +
        (others.map Entry.index : Multiset Nat) +
        (st.done.map Entry.index : Multiset Nat) := by
  simp only [List.map_append, ← Multiset.coe_add]
  rw [dispatchNext_done, ← dispatchNext_multiset st]
  abel

/-- C6: one worker-resolution step of the dispatcher conserves the
multiset of entry indices distributed over the queue, the in-flight
batches (the stepped worker's new batch plus the other workers'
`processing_texts`, `others`) and the done list — on the success path as
well as on every error path; in particular the counts sum to the same
total, so no entry is lost or duplicated.  The success hypothesis `hok`
(one result per batch entry, same indices) is what `batch_translate`
guarantees (`batchTranslatePost_indices`). -/
theorem C6_entry_conservation (initBatch : Nat)
    (postDict : List (List Char × List Char)) (s : DispState)
    (proc others : List Entry) (outcome : Outcome)
    (hok : ∀ rs, outcome = .ok rs → rs.map Entry.index = proc.map Entry.index) :
    ((((stepWorker initBatch postDict s proc outcome).1.queue ++
          ((stepWorker initBatch postDict s proc outcome).2 ++ others) ++
          (stepWorker initBatch postDict s proc outcome).1.done).map
        Entry.index).Perm
      ((s.queue ++ (proc ++ others) ++ s.done).map Entry.index)) ∧
    ((stepWorker initBatch postDict s proc outcome).1.queue.length +
        ((stepWorker initBatch postDict s proc outcome).2.length +
          others.length) +
        (stepWorker initBatch postDict s proc outcome).1.done.length =
      s.queue.length + (proc.length + others.length) + s.done.length) := by
  have hperm : (((stepWorker initBatch postDict s proc outcome).1.queue ++
      ((stepWorker initBatch postDict s proc outcome).2 ++ others) ++
      (stepWorker initBatch postDict s proc outcome).1.done).map
        Entry.index).Perm
      ((s.queue ++ (proc ++ others) ++ s.done).map Entry.index) := by
    rw [← Multiset.coe_eq_coe]
    cases outcome with
    | ok rs =>
      have hidx := hok rs rfl
      have hpost : (rs.map (applyPostDict postDict)).map Entry.index =
          proc.map Entry.index := by
        rw [List.map_map,
          show (Entry.index ∘ applyPostDict postDict) = Entry.index from rfl]
        exact hidx
      rw [show stepWorker initBatch postDict s proc (.ok rs) =
          dispatchNext ⟨s.queue,
            sortByIndex (s.done ++ rs.map (applyPostDict postDict)),
            initBatch⟩ from rfl,
        dispatchNext_total]
      rw [show ((((⟨s.queue,
          sortByIndex (s.done ++ rs.map (applyPostDict postDict)),
          initBatch⟩ : DispState)).done.map Entry.index : Multiset Nat)) =
          (s.done.map Entry.index : Multiset Nat) +
            (proc.map Entry.index : Multiset Nat) from by
        show ((sortByIndex (s.done ++ rs.map (applyPostDict postDict))).map
          Entry.index : Multiset Nat) = _
        rw [sortByIndex_multiset, List.map_append, ← Multiset.coe_add, hpost]]
      simp only [List.map_append, ← Multiset.coe_add]
      abel
    | err k =>
      cases k with
      | count a b =>
        rw [show stepWorker initBatch postDict s proc (.err (.count a b)) =
            dispatchNext ⟨sortByIndex (s.queue ++ proc), s.done,
              s.batchSize / 2⟩ from rfl,
          dispatchNext_total]
        rw [show ((((⟨sortByIndex (s.queue ++ proc), s.done,
            s.batchSize / 2⟩ : DispState)).queue.map Entry.index :
              Multiset Nat)) =
            (s.queue.map Entry.index : Multiset Nat) +
              (proc.map Entry.index : Multiset Nat) from by
          show ((sortByIndex (s.queue ++ proc)).map Entry.index :
            Multiset Nat) = _
          rw [sortByIndex_multiset, List.map_append, ← Multiset.coe_add]]
        simp only [List.map_append, ← Multiset.coe_add]
        abel
      | otherTranslate =>
        rw [show stepWorker initBatch postDict s proc (.err .otherTranslate) =
            dispatchNext ⟨sortByIndex (s.queue ++ proc), s.done,
              s.batchSize⟩ from rfl,
          dispatchNext_total]
        rw [show ((((⟨sortByIndex (s.queue ++ proc), s.done,
            s.batchSize⟩ : DispState)).queue.map Entry.index :
              Multiset Nat)) =
            (s.queue.map Entry.index : Multiset Nat) +
              (proc.map Entry.index : Multiset Nat) from by
          show ((sortByIndex (s.queue ++ proc)).map Entry.index :
            Multiset Nat) = _
          rw [sortByIndex_multiset, List.map_append, ← Multiset.coe_add]]
        simp only [List.map_append, ← Multiset.coe_add]
        abel
  refine ⟨hperm, ?_⟩
  have hlen := hperm.length_eq
  simp only [List.length_map, List.length_append] at hlen
  omega

end TkTransl

namespace TkTransl

/-- Witness for C6: a dispatcher with one queued entry integrates a
successful single-entry batch while a second worker holds one entry
in-flight; the index multiset and the counts are conserved. -/
theorem C6_entry_conservation_witness :
    ((((stepWorker 2 [] ⟨[entB], [], 2⟩ [entA] (.ok [entAok])).1.queue ++
          ((stepWorker 2 [] ⟨[entB], [], 2⟩ [entA] (.ok [entAok])).2 ++
            [entC]) ++
          (stepWorker 2 [] ⟨[entB], [], 2⟩ [entA] (.ok [entAok])).1.done).map
        Entry.index).Perm
      (([entB] ++ ([entA] ++ [entC]) ++ []).map Entry.index)) ∧
    ((stepWorker 2 [] ⟨[entB], [], 2⟩ [entA] (.ok [entAok])).1.queue.length +
        ((stepWorker 2 [] ⟨[entB], [], 2⟩ [entA] (.ok [entAok])).2.length +
          [entC].length) +
        (stepWorker 2 [] ⟨[entB], [], 2⟩ [entA] (.ok [entAok])).1.done.length =
      [entB].length + ([entA].length + [entC].length) +
        ([] : List Entry).length) :=
  C6_entry_conservation 2 [] ⟨[entB], [], 2⟩ [entA] [entC] (.ok [entAok])
    (fun rs h => by injection h with h1; subst h1; rfl)

end TkTransl

namespace TkTransl

/-! ## Claim C10 -/

lemma lookupAssoc_setAssoc_self (m : List (List Char × List Char))
    (kv : List Char × List Char) :
    lookupAssoc (setAssoc m kv) kv.1 = some kv.2 := by
  induction m with
  | nil => simp [setAssoc, lookupAssoc]
  | cons x xs ih =>
    rw [setAssoc]
    by_cases h : x.1 = kv.1
    · rw [if_pos h]
      simp [lookupAssoc]
    · rw [if_neg h]
      simp only [lookupAssoc] at ih ⊢
      rw [List.find?_cons_of_neg _ (by simp [h])]
      exact ih

lemma lookupAssoc_setAssoc_other (m : List (List Char × List Char))
    (kv : List Char × List Char) (k : List Char) (hk : k ≠ kv.1) :
    lookupAssoc (setAssoc m kv) k = lookupAssoc m k := by
  induction m with
  | nil =>
    simp only [setAssoc, lookupAssoc]
    rw [List.find?_cons_of_neg _ (by simp [Ne.symm hk])]
  | cons x xs ih =>
    rw [setAssoc]
    by_cases h : x.1 = kv.1
    · rw [if_pos h]
      simp only [lookupAssoc]
      rw [List.find?_cons_of_neg _ (by simp [Ne.symm hk]),
        List.find?_cons_of_neg _ (by rw [h]; simp [Ne.symm hk])]
    · rw [if_neg h]
      simp only [lookupAssoc] at ih ⊢
      by_cases h2 : x.1 = k
      · rw [List.find?_cons_of_pos _ (by simp [h2]),
          List.find?_cons_of_pos _ (by simp [h2])]
      · rw [List.find?_cons_of_neg _ (by simp [h2]),
          List.find?_cons_of_neg _ (by simp [h2])]
        exact ih

lemma lookupAssoc_updateAssoc_not_mem :
    ∀ (upd old : List (List Char × List Char)) (k : List Char),
      k ∉ upd.map Prod.fst →
      lookupAssoc (updateAssoc old upd) k = lookupAssoc old k := by
  intro upd
  induction upd with
  | nil => intro old k _; rfl
  | cons kv rest ih =>
    intro old k hk
    have h1 : k ∉ rest.map Prod.fst := by
      intro h
      exact hk (by simp only [List.map_cons]; exact List.mem_cons_of_mem _ h)
    have h2 : k ≠ kv.1 := by
      intro h
      exact hk (by simp only [List.map_cons, h]; exact List.mem_cons_self _ _)
    rw [show updateAssoc old (kv :: rest) = updateAssoc (setAssoc old kv) rest
        from rfl,
      ih (setAssoc old kv) k h1, lookupAssoc_setAssoc_other _ _ _ h2]

lemma lookupAssoc_updateAssoc :
    ∀ (upd : List (List Char × List Char)),
      (upd.map Prod.fst).Nodup →
      ∀ (old : List (List Char × List Char)) (k v : List Char),
        lookupAssoc upd k = some v →
        lookupAssoc (updateAssoc old upd) k = some v := by
  intro upd
  induction upd with
  | nil =>
    intro _ old k v h
    simp [lookupAssoc] at h
  | cons kv rest ih =>
    intro hnd old k v h
    rw [List.map_cons, List.nodup_cons] at hnd
    rw [show updateAssoc old (kv :: rest) = updateAssoc (setAssoc old kv) rest
      from rfl]
    by_cases hk : kv.1 = k
    · have hv : v = kv.2 := by
        simp only [lookupAssoc] at h
        rw [List.find?_cons_of_pos _ (by simp [hk])] at h
        injection h with h1
        exact h1.symm
      have hmem : k ∉ rest.map Prod.fst := hk ▸ hnd.1
      rw [lookupAssoc_updateAssoc_not_mem rest (setAssoc old kv) k hmem, ← hk,
        lookupAssoc_setAssoc_self old kv, hv]
    · have h2 : lookupAssoc rest k = some v := by
        simp only [lookupAssoc] at h ⊢
        rwa [List.find?_cons_of_neg _ (by simp [hk])] at h
      exact ih hnd.2 (setAssoc old kv) k v h2

/-- C10: the write-back `data[entry["index"]].update({... k != "index"})`
overwrites every key of the result entry except `index` into the original
array object; because the pre-translation dictionary was applied in place
to the pending entry's `source` and `batch_translate` carries `source`
through unchanged, the written `source` equals the substituted source,
not the original one whenever a pre-dict rule changed it. -/
theorem C10_writeback (preDict : List (List Char × List Char)) (row : Row)
    (i : Nat) (s0 nl qs qe resp : List Char) (sources rs : List Entry)
    (j : Nat) (hj : j < rs.length) (hjs : j < sources.length)
    (hrow : row.source = some s0)
    (hsrc : sources.get ⟨j, hjs⟩ = applyPreDict preDict (toEntry i row))
    (hok : batchTranslatePost nl qs qe sources resp = .ok rs) :
    (mergeRow row (rs.get ⟨j, hj⟩)).source = some (applyDicts preDict s0) ∧
    (applyDicts preDict s0 ≠ s0 →
      (mergeRow row (rs.get ⟨j, hj⟩)).source ≠ some s0) ∧
    (∀ v, (rs.get ⟨j, hj⟩).target = some v →
      (mergeRow row (rs.get ⟨j, hj⟩)).target = some v) ∧
    (∀ v, (rs.get ⟨j, hj⟩).speaker = some v →
      (mergeRow row (rs.get ⟨j, hj⟩)).speaker = some v) ∧
    (∀ v, (rs.get ⟨j, hj⟩).target_speaker = some v →
      (mergeRow row (rs.get ⟨j, hj⟩)).target_speaker = some v) ∧
    (((rs.get ⟨j, hj⟩).extra.map Prod.fst).Nodup →
      ∀ k v, lookupAssoc (rs.get ⟨j, hj⟩).extra k = some v →
        lookupAssoc (mergeRow row (rs.get ⟨j, hj⟩)).extra k = some v) := by
  have hmap := batchTranslatePost_map Entry.source (restoreEntry_source nl qs qe) hok
  have hsource : (rs.get ⟨j, hj⟩).source = applyDicts preDict s0 := by
    have h1 := congrArg (fun l : List (List Char) => l[j]?) hmap
    simp only [List.getElem?_map] at h1
    rw [List.getElem?_eq_getElem (by simpa using hj),
      List.getElem?_eq_getElem (by simpa using hjs)] at h1
    simp only [Option.map_some'] at h1
    injection h1 with h2
    have h3 : (sources.get ⟨j, hjs⟩).source = applyDicts preDict s0 := by
      rw [hsrc]
      show applyDicts preDict (row.source.getD []) = _
      rw [hrow]
      rfl
    calc (rs.get ⟨j, hj⟩).source = (rs[j]).source := by rw [List.get_eq_getElem]
    _ = (sources[j]).source := h2
    _ = (sources.get ⟨j, hjs⟩).source := by rw [List.get_eq_getElem]
    _ = applyDicts preDict s0 := h3
  refine ⟨?_, ?_, ?_, ?_, ?_, ?_⟩
  · show some (rs.get ⟨j, hj⟩).source = _
    rw [hsource]
  · intro hne heq
    have : some (rs.get ⟨j, hj⟩).source = some s0 := heq
    rw [hsource] at this
    injection this with h3
    exact hne h3
  · intro v hv
    show (match (rs.get ⟨j, hj⟩).target with
      | some t => some t | none => row.target) = some v
    rw [hv]
  · intro v hv
    show (match (rs.get ⟨j, hj⟩).speaker with
      | some t => some t | none => row.speaker) = some v
    rw [hv]
  · intro v hv
    show (match (rs.get ⟨j, hj⟩).target_speaker with
      | some t => some t | none => row.target_speaker) = some v
    rw [hv]
  · intro hnd k v hkv
    exact lookupAssoc_updateAssoc _ hnd row.extra k v hkv

/-- Witness for C10: row with source `AB`, pre-dict `A -> X`, reply `t`:
the merged row's source is `XB`, not the original `AB`; the translation
and the passthrough key `k` are carried over. -/
theorem C10_writeback_witness :
    (mergeRow c10row (c10rs.get ⟨0, by decide⟩)).source =
        some (applyDicts c10pre (lc "AB")) ∧
      (mergeRow c10row (c10rs.get ⟨0, by decide⟩)).source ≠ some (lc "AB") ∧
      (mergeRow c10row (c10rs.get ⟨0, by decide⟩)).target = some (lc "t") ∧
      lookupAssoc (mergeRow c10row (c10rs.get ⟨0, by decide⟩)).extra (lc "k") =
        some (lc "v") := by
  have h := C10_writeback c10pre c10row 3 (lc "AB") (lc "<NL-1>") (lc "<QS-1>")
    (lc "<QE-1>") (lc "t") c10sources c10rs 0 (by decide) (by decide) rfl rfl rfl
  exact ⟨h.1, h.2.1 (by decide), h.2.2.1 (lc "t") rfl,
    h.2.2.2.2.2 (by decide) (lc "k") (lc "v") rfl⟩

end TkTransl
